import Mathlib

/-!
Verification of the grouping layer of `py-polars/polars/dataframe/groupby.py`.

The Python file is a thin wrapper: the group-index algorithms themselves
(key grouping, rolling windows, dynamic windows, per-group apply) live in the
evaluation engine, which the wrapper calls through `LazyFrame.groupby*`,
`DataFrame._df.groupby_apply` and friends.  Definitions below that embed the
engine's behaviour are marked `Modelled from the spec:`; everything else is a
direct embedding of the Python wrapper code.

Conventions of the embedding:
- a table column is a Lean `List`; row indices are `Nat` positions;
- timestamps are `Int` (the spec's examples are in seconds);
- machine iterators become explicit state records with `next`/`reset`;
- fallible operations return `Except GbError _`.
-/

namespace PolarsGroupBy

/-- Errors surfaced by the grouping layer (spec §7). -/
inductive GbError where
  | UnsortedIndexError
  | TypeError
  deriving DecidableEq, Repr

/-- Modelled from the spec: the Key Indexer (§4.2) lives in the evaluation
engine, not in the wrapper file.  `insertIdx k i acc` appends row index `i`
to the entry for key `k`, creating a new entry at the end on first
appearance. -/
def insertIdx {κ : Type} [DecidableEq κ] (k : κ) (i : Nat) :
    List (κ × List Nat) → List (κ × List Nat)
  | [] => [(k, [i])]
  | (k', is) :: rest =>
    if k = k' then (k', is ++ [i]) :: rest else (k', is) :: insertIdx k i rest

/-- Modelled from the spec: fold of `insertIdx` over the rows, threading the
current row index. -/
def keyGroupIndexAux {κ : Type} [DecidableEq κ] :
    List κ → Nat → List (κ × List Nat) → List (κ × List Nat)
  | [], _, acc => acc
  | k :: ks, i, acc => keyGroupIndexAux ks (i + 1) (insertIdx k i acc)

/-- Modelled from the spec: the Key Indexer.  Given the evaluated grouping
column (one key value per row, composite keys being tuple-valued `κ`),
produce the ordered group index: entries in first-appearance order of the
key, row indices within an entry in ascending table order. -/
def keyGroupIndex {κ : Type} [DecidableEq κ] (keys : List κ) : List (κ × List Nat) :=
  keyGroupIndexAux keys 0 []

/-- The keys of a list in the order of their first appearance, written
directly from the spec's words ("entries are emitted in the order each key
first appears in the table") for comparison with `keyGroupIndex`. -/
def firstAppearanceOrder {κ : Type} [DecidableEq κ] : List κ → List κ
  | [] => []
  | k :: ks => k :: (firstAppearanceOrder ks).filter (fun x => decide (x ≠ k))

/-- The `closed` policy of a time window (spec §3, `ClosedInterval`). -/
inductive Closed where
  | left
  | right
  | both
  | none
  deriving DecidableEq, Repr

/-- Modelled from the spec: window membership test.  `inWindow c lo hi t` is
whether timestamp `t` lies in the window `[lo, hi]` with boundary
inclusivity given by the `closed` policy (§4.2: `left` includes the lower
bound only, `right` the upper bound only, `both` both, `none` neither). -/
def inWindow (c : Closed) (lo hi t : Int) : Bool :=
  match c with
  | Closed.left => decide (lo ≤ t) && decide (t < hi)
  | Closed.right => decide (lo < t) && decide (t ≤ hi)
  | Closed.both => decide (lo ≤ t) && decide (t ≤ hi)
  | Closed.none => decide (lo < t) && decide (t < hi)

/-- Modelled from the spec: single sweep over the rows (partition value
paired with timestamp), collecting the indices of the rows that lie in the
given partition and window.  `j` is the index of the first row of the
remaining list. -/
def rowsInWindowAux {β : Type} [DecidableEq β] (c : Closed) (b : β) (lo hi : Int) :
    Nat → List (β × Int) → List Nat
  | _, [] => []
  | j, q :: rest =>
    if decide (q.1 = b) && inWindow c lo hi q.2 then
      j :: rowsInWindowAux c b lo hi (j + 1) rest
    else
      rowsInWindowAux c b lo hi (j + 1) rest

/-- Modelled from the spec: the member row indices of one rolling window:
every row in partition `b` whose timestamp falls inside `[lo, hi]` under
policy `c`, in ascending row order. -/
def rowsInWindow {β : Type} [DecidableEq β] (c : Closed) (b : β) (lo hi : Int)
    (rows : List (β × Int)) : List Nat :=
  rowsInWindowAux c b lo hi 0 rows

/-- Modelled from the spec: the Rolling Indexer (§4.2), which the wrapper
delegates to `LazyFrame.groupby_rolling`.  One window per row `i`: key is
the row's own partition value and timestamp, bounds are
`[t_i + offset, t_i + offset + period]`, membership is every row in the
same partition whose timestamp falls inside that window.  The
non-partitioned case is the special case of a constant partition column. -/
def rollingGroupIndexBy {β : Type} [DecidableEq β] (ts : List Int) (part : List β)
    (period offset : Int) (c : Closed) : List ((β × Int) × List Nat) :=
  (part.zip ts).map fun q =>
    (q, rowsInWindow c q.1 (q.2 + offset) (q.2 + offset + period) (part.zip ts))

/-- Modelled from the spec: sortedness check of the time-index column. -/
def isNonDecreasing : List Int → Bool
  | [] => true
  | [_] => true
  | a :: b :: rest => decide (a ≤ b) && isNonDecreasing (b :: rest)

/-- Modelled from the spec: the `check_sorted` validation of the Rolling
Indexer — the time-index column must be non-decreasing, or, when secondary
partition columns are given, non-decreasing within each partition. -/
def rollingSortedOk {β : Type} [DecidableEq β] (ts : List Int)
    (part : Option (List β)) : Bool :=
  match part with
  | Option.none => isNonDecreasing ts
  | Option.some pc =>
    ((keyGroupIndex pc).map fun e => e.2.map fun i => ts.getD i 0).all
      fun l => isNonDecreasing l

/-- Modelled from the spec: the full rolling grouping operation behind
`RollingGroupBy.__iter__`/`agg`: validate sortedness first (when
`check_sorted` is set), failing with `UnsortedIndexError` before any entry
is produced, then compute the rolling group index.  A missing partition
column is modelled as a constant partition column. -/
def rollingCompute {β : Type} [DecidableEq β] [Inhabited β] (ts : List Int)
    (part : Option (List β)) (period offset : Int) (c : Closed)
    (check_sorted : Bool) : Except GbError (List ((β × Int) × List Nat)) :=
  if check_sorted && !(rollingSortedOk ts part) then
    Except.error GbError.UnsortedIndexError
  else
    Except.ok
      (rollingGroupIndexBy ts (part.getD (List.replicate ts.length default))
        period offset c)

/-- A table snapshot for keyed aggregation: the evaluated grouping column
and one value column (the spec's examples aggregate a single numeric
column). -/
structure TableSnapshot (κ : Type) where
  keyCol : List κ
  valCol : List Int
  deriving DecidableEq

/-- Aggregation operations whose per-group evaluation stays in `Int`. -/
inductive AggOp where
  | sum
  | count
  | min
  | max
  | first
  | last
  deriving DecidableEq, Repr

/-- Modelled from the spec: per-group evaluation of one aggregation
expression (the aggregation functions themselves are the evaluation
engine's, §1/§4.4). -/
def evalAggOp : AggOp → List Int → Int
  | AggOp.sum, xs => xs.sum
  | AggOp.count, xs => (xs.length : Int)
  | AggOp.min, xs => xs.foldl Min.min (xs.headD 0)
  | AggOp.max, xs => xs.foldl Max.max (xs.headD 0)
  | AggOp.first, xs => xs.headD 0
  | AggOp.last, xs => xs.getLastD 0

/-- Modelled from the spec: the Aggregation Dispatcher (§4.4) behind
`GroupBy.agg`: one result row per group-index entry, the key component
followed by one value per aggregation expression, evaluated over exactly
that entry's rows. -/
def aggregate {κ : Type} [DecidableEq κ] (t : TableSnapshot κ) (ops : List AggOp) :
    List (κ × List Int) :=
  (keyGroupIndex t.keyCol).map fun e =>
    (e.1, ops.map fun op => evalAggOp op (e.2.map fun i => t.valCol.getD i 0))

/-- The state behind `GroupBy.__iter__`/`__next__`: the source table data,
the computed group names and row-index lists, and the mutable cursor
(`_current_index`). -/
structure GroupIter (κ ρ : Type) where
  keys : List κ
  rows : List ρ
  names : List κ
  indices : List (List Nat)
  cursor : Nat

/-- `GroupBy.__iter__`: compute the group index against the current table,
store names and indices, and reset the cursor to 0. -/
def iterStart {κ ρ : Type} [DecidableEq κ] (keys : List κ) (rows : List ρ) :
    GroupIter κ ρ :=
  ⟨keys, rows, (keyGroupIndex keys).map Prod.fst,
    (keyGroupIndex keys).map Prod.snd, 0⟩

/-- Restarting iteration (`__iter__` called again on the same object):
recompute the group index from the retained table and reset the cursor. -/
def GroupIter.reset {κ ρ : Type} [DecidableEq κ] (s : GroupIter κ ρ) :
    GroupIter κ ρ :=
  iterStart s.keys s.rows

/-- `GroupBy.__next__`: `StopIteration` (here `Option.none`) once the cursor
passes the last entry; otherwise the next entry's name and the sub-table
built from exactly that entry's row indices, in stored order, together
with the advanced state. -/
def GroupIter.next {κ ρ : Type} [Inhabited κ] [Inhabited ρ] (s : GroupIter κ ρ) :
    Option ((κ × List ρ) × GroupIter κ ρ) :=
  if s.cursor < s.indices.length then
    Option.some
      ((s.names.getD s.cursor default,
        (s.indices.getD s.cursor []).map fun i => s.rows.getD i default),
        ⟨s.keys, s.rows, s.names, s.indices, s.cursor + 1⟩)
  else
    Option.none

/-- Advance the cursor `n` times (no-op once `__next__` signals the end). -/
def advanceN {κ ρ : Type} [Inhabited κ] [Inhabited ρ] :
    Nat → GroupIter κ ρ → GroupIter κ ρ
  | 0, s => s
  | Nat.succ n, s =>
    match s.next with
    | Option.none => s
    | Option.some (_, s') => advanceN n s'

/-- Collect at most `fuel` successive `__next__` results. -/
def iterTraceAux {κ ρ : Type} [Inhabited κ] [Inhabited ρ] :
    Nat → GroupIter κ ρ → List (κ × List ρ)
  | 0, _ => []
  | Nat.succ n, s =>
    match s.next with
    | Option.none => []
    | Option.some (kv, s') => kv :: iterTraceAux n s'

/-- The full remaining pass of the iterator: every (key, sub-table) pair
from the cursor to exhaustion. -/
def iterTrace {κ ρ : Type} [Inhabited κ] [Inhabited ρ] (s : GroupIter κ ρ) :
    List (κ × List ρ) :=
  iterTraceAux (s.indices.length - s.cursor) s

/-- Aggregation expressions as syntax, as built by the wrapper's
convenience methods (`F.all()`, `F.count()`, `F.all().sum()`, …).  The
engine that evaluates them is opaque to the wrapper. -/
inductive PExpr where
  | all
  | count
  | sum (e : PExpr)
  | mean (e : PExpr)
  | median (e : PExpr)
  | min (e : PExpr)
  | max (e : PExpr)
  | nUnique (e : PExpr)
  | quantile (e : PExpr) (q : Rat) (interp : String)
  | first (e : PExpr)
  | last (e : PExpr)
  deriving DecidableEq

/-- The `GroupBy` wrapper as seen by the convenience aggregations: the
dataframe plus the opaque evaluation engine reached through
`df.lazy().groupby(...).agg(...).collect()` (the grouping spec is baked
into the engine closure). -/
structure PyGroupBy (D R : Type) where
  df : D
  engine : D → PExpr → R

/-- `GroupBy.agg`: forward the expression to the evaluation engine in one
batched call, returning its result unmodified. -/
def PyGroupBy.agg {D R : Type} (g : PyGroupBy D R) (e : PExpr) : R :=
  g.engine g.df e

/-- `GroupBy.all`: `self.agg(F.all())`. -/
def PyGroupBy.all {D R : Type} (g : PyGroupBy D R) : R :=
  g.agg PExpr.all

/-- `GroupBy.count`: `self.agg(F.count())`. -/
def PyGroupBy.count {D R : Type} (g : PyGroupBy D R) : R :=
  g.agg PExpr.count

/-- `GroupBy.first`: `self.agg(F.all().first())`. -/
def PyGroupBy.first {D R : Type} (g : PyGroupBy D R) : R :=
  g.agg (PExpr.first PExpr.all)

/-- `GroupBy.last`: `self.agg(F.all().last())`. -/
def PyGroupBy.last {D R : Type} (g : PyGroupBy D R) : R :=
  g.agg (PExpr.last PExpr.all)

/-- `GroupBy.max`: `self.agg(F.all().max())`. -/
def PyGroupBy.max {D R : Type} (g : PyGroupBy D R) : R :=
  g.agg (PExpr.max PExpr.all)

/-- `GroupBy.mean`: `self.agg(F.all().mean())`. -/
def PyGroupBy.mean {D R : Type} (g : PyGroupBy D R) : R :=
  g.agg (PExpr.mean PExpr.all)

/-- `GroupBy.median`: `self.agg(F.all().median())`. -/
def PyGroupBy.median {D R : Type} (g : PyGroupBy D R) : R :=
  g.agg (PExpr.median PExpr.all)

/-- `GroupBy.min`: `self.agg(F.all().min())`. -/
def PyGroupBy.min {D R : Type} (g : PyGroupBy D R) : R :=
  g.agg (PExpr.min PExpr.all)

/-- `GroupBy.n_unique`: `self.agg(F.all().n_unique())`. -/
def PyGroupBy.nUnique {D R : Type} (g : PyGroupBy D R) : R :=
  g.agg (PExpr.nUnique PExpr.all)

/-- `GroupBy.quantile`: `self.agg(F.all().quantile(quantile, interpolation))`. -/
def PyGroupBy.quantile {D R : Type} (g : PyGroupBy D R) (q : Rat)
    (interp : String) : R :=
  g.agg (PExpr.quantile PExpr.all q interp)

/-- `GroupBy.sum`: `self.agg(F.all().sum())`. -/
def PyGroupBy.sum {D R : Type} (g : PyGroupBy D R) : R :=
  g.agg (PExpr.sum PExpr.all)

/-- A runtime `IntoExpr` grouping key as `GroupBy.apply` inspects it: a
plain column-name string, or a non-string expression object (`pl.Expr`,
`WhenThen`, `WhenThenThen`). -/
inductive PyVal where
  | str (s : String)
  | expr
  deriving DecidableEq

/-- `isinstance(c, str)`. -/
def PyVal.isStr : PyVal → Bool
  | PyVal.str _ => true
  | PyVal.expr => false

def PyVal.asStr : PyVal → Option String
  | PyVal.str s => Option.some s
  | PyVal.expr => Option.none

/-- The `by` argument of `GroupBy.__init__`: a single `IntoExpr` or an
iterable of them. -/
inductive ByArg where
  | one (v : PyVal)
  | seq (vs : List PyVal)
  deriving DecidableEq

/-- The key-extraction prologue of `GroupBy.apply` (source lines 309–321):
a single string is wrapped in a list; an iterable is accepted only when
all of its elements are strings; a bare expression fails; then `more_by`
must also be all strings.  Each failing check raises `TypeError` before
the user function is ever invoked. -/
def applyByNames (b : ByArg) (more : List PyVal) : Except GbError (List String) :=
  match b with
  | ByArg.one (PyVal.str s) =>
    if more.all PyVal.isStr then
      Except.ok (s :: more.filterMap PyVal.asStr)
    else
      Except.error GbError.TypeError
  | ByArg.one PyVal.expr => Except.error GbError.TypeError
  | ByArg.seq vs =>
    if vs.all PyVal.isStr then
      if more.all PyVal.isStr then
        Except.ok (vs.filterMap PyVal.asStr ++ more.filterMap PyVal.asStr)
      else
        Except.error GbError.TypeError
    else
      Except.error GbError.TypeError

/-- Whether every grouping key (`by` and `more_by`) is a plain string. -/
def allByStrings : ByArg → List PyVal → Bool
  | ByArg.one v, more => v.isStr && more.all PyVal.isStr
  | ByArg.seq vs, more => vs.all PyVal.isStr && more.all PyVal.isStr

/-- Modelled from the spec: the engine's `groupby_apply` (§4.5) — build the
sub-table of each group-index entry in entry order, invoke the function on
it, and concatenate the results.  Key evaluation is abstracted into
`keyOf`. -/
def groupbyApplyEngine {κ ρ : Type} [DecidableEq κ] [Inhabited ρ] (rows : List ρ)
    (keyOf : ρ → κ) (f : List ρ → List ρ) : List ρ :=
  ((keyGroupIndex (rows.map keyOf)).map fun e =>
    f (e.2.map fun i => rows.getD i default)).flatten

/-- `GroupBy.apply`: validate that all grouping keys are strings (raising
`TypeError` otherwise, before the user function runs), then delegate to
the engine's per-group apply. -/
def pyApply {κ ρ : Type} [DecidableEq κ] [Inhabited ρ] (rows : List ρ)
    (keyOf : ρ → κ) (b : ByArg) (more : List PyVal) (f : List ρ → List ρ) :
    Except GbError (List ρ) :=
  match applyByNames b more with
  | Except.error e => Except.error e
  | Except.ok _ => Except.ok (groupbyApplyEngine rows keyOf f)

/-- The shape of the group name yielded during iteration: a bare scalar or
a tuple of values. -/
inductive KeyShape where
  | scalar
  | tuple
  deriving DecidableEq, Repr

/-- The name-shape decision of `GroupBy.__iter__` (lines 110–119): a bare
scalar when `by` is a single string/expression and `more_by` is empty,
otherwise a row tuple. -/
def keyGroupNameShape : ByArg → List PyVal → KeyShape
  | ByArg.one _, [] => KeyShape.scalar
  | ByArg.one _, _ :: _ => KeyShape.tuple
  | ByArg.seq _, _ => KeyShape.tuple

/-- The name-shape decision of `RollingGroupBy.__iter__` (lines 800–806):
a bare scalar when `by is None`, otherwise a tuple. -/
def rollingNameShape {γ : Type} : Option γ → KeyShape
  | Option.none => KeyShape.scalar
  | Option.some _ => KeyShape.tuple

/-- The name-shape decision of `DynamicGroupBy.__iter__` (lines 1002–1008),
textually identical to the rolling one. -/
def dynamicNameShape {γ : Type} : Option γ → KeyShape
  | Option.none => KeyShape.scalar
  | Option.some _ => KeyShape.tuple

end PolarsGroupBy

namespace PolarsGroupBy

theorem insertIdx_flatten_perm {κ : Type} [DecidableEq κ] (k : κ) (i : Nat)
    (acc : List (κ × List Nat)) :
    ((insertIdx k i acc).map Prod.snd).flatten.Perm
      ((acc.map Prod.snd).flatten ++ [i]) := by
  induction acc with
  | nil => simp [insertIdx]
  | cons hd tl ih =>
    obtain ⟨k', is⟩ := hd
    by_cases h : k = k'
    · simp only [insertIdx, if_pos h, List.map_cons, List.flatten_cons]
      rw [List.append_assoc, List.append_assoc]
      exact List.Perm.append_left is (List.perm_append_comm)
    · simp only [insertIdx, if_neg h, List.map_cons, List.flatten_cons]
      rw [List.append_assoc]
      exact List.Perm.append_left is ih

theorem keyGroupIndexAux_flatten_perm {κ : Type} [DecidableEq κ] (ks : List κ) :
    ∀ (s : Nat) (acc : List (κ × List Nat)),
    ((keyGroupIndexAux ks s acc).map Prod.snd).flatten.Perm
      ((acc.map Prod.snd).flatten ++ List.range' s ks.length) := by
  induction ks with
  | nil => intro s acc; simp [keyGroupIndexAux]
  | cons k ks ih =>
    intro s acc
    have h1 := ih (s + 1) (insertIdx k s acc)
    have h2 := (insertIdx_flatten_perm k s acc).append_right
      (List.range' (s + 1) ks.length)
    have h3 : (((acc.map Prod.snd).flatten ++ [s]) ++ List.range' (s + 1) ks.length)
        = (acc.map Prod.snd).flatten ++ List.range' s (k :: ks).length := by
      rw [List.append_assoc, List.length_cons, List.range'_succ, List.singleton_append]
    exact h1.trans (h3 ▸ h2)

/-- C1: for every table (any key column, composite keys included), the Key
group index is a partition of the row indices: the concatenation of all
entries' row-index lists is a permutation of `0, …, n-1`. -/
theorem keyGroupIndex_partition {κ : Type} [DecidableEq κ] (keys : List κ) :
    (((keyGroupIndex keys).map Prod.snd).flatten).Perm (List.range keys.length) := by
  have h := keyGroupIndexAux_flatten_perm keys 0 []
  simpa [keyGroupIndex, List.range_eq_range'] using h

/-- C2: on any table whose time-index column fails the (per-partition)
sortedness check, rolling grouping with `check_sorted` set fails with
`UnsortedIndexError`, producing no entries. -/
theorem rollingCompute_unsorted_raises {β : Type} [DecidableEq β] [Inhabited β]
    (ts : List Int) (part : Option (List β)) (p o : Int) (c : Closed)
    (h : rollingSortedOk ts part = false) :
    rollingCompute ts part p o c true = Except.error GbError.UnsortedIndexError := by
  simp [rollingCompute, h]

theorem rollingCompute_unsorted_raises_witness :
    rollingSortedOk [(1 : Int), 0] (Option.none : Option (List Int)) = false ∧
    rollingCompute [(1 : Int), 0] (Option.none : Option (List Int)) 2 (-2)
      Closed.right true = Except.error GbError.UnsortedIndexError :=
  ⟨by decide, rollingCompute_unsorted_raises _ _ _ _ _ (by decide)⟩

theorem rowsInWindowAux_eq {β : Type} [DecidableEq β] [Inhabited β] (c : Closed)
    (b : β) (lo hi : Int) (rows : List (β × Int)) :
    ∀ j : Nat, rowsInWindowAux c b lo hi j rows =
      ((List.range rows.length).filter fun i =>
        decide ((rows.getD i (default, 0)).1 = b) &&
          inWindow c lo hi (rows.getD i (default, 0)).2).map (fun i => i + j) := by
  induction rows with
  | nil => intro j; simp [rowsInWindowAux]
  | cons q rest ih =>
    intro j
    have harith : ∀ i : Nat, i + 1 + j = i + (j + 1) := fun i => by omega
    simp only [rowsInWindowAux, List.length_cons, List.range_succ_eq_map,
      List.filter_cons, List.getD_cons_zero, List.filter_map, Function.comp,
      List.getD_cons_succ, ih (j + 1)]
    by_cases hq : (decide (q.1 = b) && inWindow c lo hi q.2) = true
    · simp only [hq, if_true, List.map_cons, Nat.zero_add, List.map_map,
        Function.comp_def, Nat.succ_eq_add_one, List.getD_cons_succ, harith]
    · simp only [hq, if_false, Bool.false_eq_true, List.map_map,
        Function.comp_def, Nat.succ_eq_add_one, List.getD_cons_succ, harith]

theorem rollingGroupIndexBy_length {β : Type} [DecidableEq β] (ts : List Int)
    (part : List β) (p o : Int) (c : Closed) (hl : part.length = ts.length) :
    (rollingGroupIndexBy ts part p o c).length = ts.length := by
  simp [rollingGroupIndexBy, List.length_zip, hl]

/-- C3: rolling grouping emits one window per row, keyed by the row's own
partition value and timestamp, with bounds `[t_i + offset,
t_i + offset + period]` and membership exactly the same-partition rows
whose timestamps fall in that window under the `closed` policy; in
particular on timestamps `[0, 1, 2, 5]` with `period = 2`, `offset = -2`,
`closed = right`, the window anchored at `t = 5` contains only its own
row. -/
theorem rolling_row_anchored_windows {β : Type} [DecidableEq β] [Inhabited β]
    (ts : List Int) (part : List β) (p o : Int) (c : Closed) (i : Nat)
    (hs : isNonDecreasing ts = true) (hl : part.length = ts.length)
    (hi : i < ts.length) :
    (rollingGroupIndexBy ts part p o c).length = ts.length ∧
    ((rollingGroupIndexBy ts part p o c).getD i default).1
      = (part.getD i default, ts.getD i 0) ∧
    ((rollingGroupIndexBy ts part p o c).getD i default).2
      = (List.range ts.length).filter (fun j =>
          decide (part.getD j default = part.getD i default) &&
            inWindow c (ts.getD i 0 + o) (ts.getD i 0 + o + p) (ts.getD j 0)) ∧
    ((rollingGroupIndexBy [0, 1, 2, 5] (List.replicate 4 ()) 2 (-2)
        Closed.right).getD 3 default).2 = [3] := by
  have hzlen : (part.zip ts).length = ts.length := by
    rw [List.length_zip, hl, Nat.min_self]
  have hgd : ∀ j, j < ts.length →
      (part.zip ts).getD j (default, 0) = (part.getD j default, ts.getD j 0) := by
    intro j hj
    have hj' : j < (part.zip ts).length := by rw [hzlen]; exact hj
    have hjp : j < part.length := by rw [hl]; exact hj
    rw [List.getD_eq_getElem _ _ hj', List.getElem_zip,
      List.getD_eq_getElem part _ hjp, List.getD_eq_getElem ts _ hj]
  have hi' : i < (rollingGroupIndexBy ts part p o c).length := by
    rw [rollingGroupIndexBy_length ts part p o c hl]; exact hi
  have hizip : i < (part.zip ts).length := by rw [hzlen]; exact hi
  have hentry : (rollingGroupIndexBy ts part p o c).getD i default
      = ((part.getD i default, ts.getD i 0),
         rowsInWindow c (part.getD i default) (ts.getD i 0 + o)
           (ts.getD i 0 + o + p) (part.zip ts)) := by
    rw [List.getD_eq_getElem _ _ hi']
    simp only [rollingGroupIndexBy, List.getElem_map, List.getElem_zip]
    rw [← List.getD_eq_getElem part default (by rw [hl]; exact hi),
      ← List.getD_eq_getElem ts 0 hi]
  refine ⟨rollingGroupIndexBy_length ts part p o c hl, by rw [hentry], ?_, by decide⟩
  rw [hentry]
  show rowsInWindow c (part.getD i default) (ts.getD i 0 + o)
      (ts.getD i 0 + o + p) (part.zip ts) = _
  rw [rowsInWindow, rowsInWindowAux_eq]
  simp only [Nat.add_zero, List.map_id', hzlen]
  refine List.filter_congr ?_
  intro j hj
  rw [hgd j (List.mem_range.mp hj)]

theorem inWindow_none_imp_both (lo hi t : Int)
    (h : inWindow Closed.none lo hi t = true) :
    inWindow Closed.both lo hi t = true := by
  simp only [inWindow, Bool.and_eq_true, decide_eq_true_eq] at h ⊢
  omega

theorem rowsInWindowAux_subset_of_imp {β : Type} [DecidableEq β] {c c' : Closed}
    {b : β} {lo hi : Int}
    (himp : ∀ t, inWindow c lo hi t = true → inWindow c' lo hi t = true) :
    ∀ (j : Nat) (rows : List (β × Int)),
      rowsInWindowAux c b lo hi j rows ⊆ rowsInWindowAux c' b lo hi j rows := by
  intro j rows
  induction rows generalizing j with
  | nil => simp [rowsInWindowAux]
  | cons q rest ih =>
    simp only [rowsInWindowAux]
    by_cases h1 : (decide (q.1 = b) && inWindow c lo hi q.2) = true
    · have h2 : (decide (q.1 = b) && inWindow c' lo hi q.2) = true := by
        simp only [Bool.and_eq_true] at h1 ⊢
        exact ⟨h1.1, himp _ h1.2⟩
      rw [if_pos h1, if_pos h2]
      exact List.cons_subset_cons _ (ih (j + 1))
    · rw [if_neg h1]
      by_cases h2 : (decide (q.1 = b) && inWindow c' lo hi q.2) = true
      · rw [if_pos h2]
        exact (ih (j + 1)).trans (List.subset_cons_self _ _)
      · rw [if_neg h2]
        exact ih (j + 1)

/-- C4: for identical `period` and `offset` on the same data, every rolling
window computed with `closed = both` contains (row-index-wise) the
corresponding window computed with `closed = none`. -/
theorem closed_both_windows_superset_of_none {β : Type} [DecidableEq β]
    (ts : List Int) (part : List β) (p o : Int) :
    List.Forall₂ (fun e1 e2 : (β × Int) × List Nat => e1.2 ⊆ e2.2)
      (rollingGroupIndexBy ts part p o Closed.none)
      (rollingGroupIndexBy ts part p o Closed.both) := by
  unfold rollingGroupIndexBy
  rw [List.forall₂_map_left_iff, List.forall₂_map_right_iff, List.forall₂_same]
  intro q _
  exact rowsInWindowAux_subset_of_imp (inWindow_none_imp_both _ _) 0 _

theorem rolling_row_anchored_windows_witness :
    isNonDecreasing [0, 1, 2, 5] = true ∧
    (List.replicate 4 ()).length = [(0 : Int), 1, 2, 5].length ∧
    3 < [(0 : Int), 1, 2, 5].length ∧
    ((rollingGroupIndexBy [0, 1, 2, 5] (List.replicate 4 ()) 2 (-2)
        Closed.right).getD 3 default).2 = [3] :=
  ⟨by decide, by decide, by decide,
    (rolling_row_anchored_windows [0, 1, 2, 5] (List.replicate 4 ()) 2 (-2)
      Closed.right 3 (by decide) (by decide) (by decide)).2.2.2⟩

/-- C5: aggregation is deterministic for a fixed table snapshot and spec —
two calls of `aggregate` with an unchanged table and identical
aggregation expressions return identical output tables. -/
theorem aggregate_deterministic {κ : Type} [DecidableEq κ]
    (t t' : TableSnapshot κ) (ops ops' : List AggOp)
    (ht : t = t') (hops : ops = ops') :
    aggregate t ops = aggregate t' ops' := by
  subst ht
  subst hops
  rfl

theorem aggregate_deterministic_witness :
    (⟨["a", "b"], [1, 2]⟩ : TableSnapshot String) = ⟨["a", "b"], [1, 2]⟩ ∧
    [AggOp.sum] = [AggOp.sum] ∧
    aggregate (⟨["a", "b"], [1, 2]⟩ : TableSnapshot String) [AggOp.sum]
      = aggregate (⟨["a", "b"], [1, 2]⟩ : TableSnapshot String) [AggOp.sum] :=
  ⟨rfl, rfl, aggregate_deterministic _ _ _ _ rfl rfl⟩

theorem insertIdx_map_fst {κ : Type} [DecidableEq κ] (k : κ) (i : Nat)
    (acc : List (κ × List Nat)) :
    (insertIdx k i acc).map Prod.fst =
      if k ∈ acc.map Prod.fst then acc.map Prod.fst
      else acc.map Prod.fst ++ [k] := by
  induction acc with
  | nil => simp [insertIdx]
  | cons hd tl ih =>
    obtain ⟨k', is⟩ := hd
    by_cases h : k = k'
    · subst h
      simp [insertIdx]
    · simp only [insertIdx, if_neg h, List.map_cons, List.mem_cons]
      by_cases hmem : k ∈ tl.map Prod.fst
      · simp [ih, hmem, h]
      · simp [ih, hmem, h]

theorem keyGroupIndexAux_map_fst {κ : Type} [DecidableEq κ] (ks : List κ) :
    ∀ (s : Nat) (acc : List (κ × List Nat)),
    (keyGroupIndexAux ks s acc).map Prod.fst =
      acc.map Prod.fst ++
        (firstAppearanceOrder ks).filter
          (fun x => !decide (x ∈ acc.map Prod.fst)) := by
  induction ks with
  | nil => intro s acc; simp [keyGroupIndexAux, firstAppearanceOrder]
  | cons k ks ih =>
    intro s acc
    have hstep : keyGroupIndexAux (k :: ks) s acc
        = keyGroupIndexAux ks (s + 1) (insertIdx k s acc) := rfl
    rw [hstep, ih, insertIdx_map_fst]
    by_cases hk : k ∈ acc.map Prod.fst
    · rw [if_pos hk]
      congr 1
      rw [firstAppearanceOrder, List.filter_cons]
      have hnk : (!decide (k ∈ acc.map Prod.fst)) = false := by simp [hk]
      rw [hnk]
      simp only [Bool.false_eq_true, if_false, List.filter_filter]
      refine List.filter_congr ?_
      intro a _
      by_cases h1 : a ∈ acc.map Prod.fst
      · simp [h1]
      · have h2 : a ≠ k := fun hak => h1 (hak ▸ hk)
        simp [h1, h2]
    · rw [if_neg hk]
      rw [firstAppearanceOrder, List.filter_cons]
      have hnk : (!decide (k ∈ acc.map Prod.fst)) = true := by simp [hk]
      rw [hnk]
      simp only [if_true, List.filter_filter]
      rw [List.append_assoc, List.singleton_append]
      have htail : (firstAppearanceOrder ks).filter
            (fun x => !decide (x ∈ acc.map Prod.fst ++ [k]))
          = (firstAppearanceOrder ks).filter
            (fun a => !decide (a ∈ acc.map Prod.fst) && decide (a ≠ k)) := by
        refine List.filter_congr ?_
        intro a _
        by_cases h1 : a ∈ acc.map Prod.fst
        · simp [h1, List.mem_append]
        · by_cases h2 : a = k
          · simp [h1, h2, List.mem_append]
          · simp [h1, h2, List.mem_append]
      rw [htail]

theorem keyGroupIndex_map_fst {κ : Type} [DecidableEq κ] (keys : List κ) :
    (keyGroupIndex keys).map Prod.fst = firstAppearanceOrder keys := by
  have h := keyGroupIndexAux_map_fst keys 0 []
  simpa [keyGroupIndex] using h

/-- C6: key-grouping the table `g = [a, a, b]`, `v = [1, 2, 3]` with order
preservation and sum-aggregating `v` yields exactly the rows `(a, 3)` then
`(b, 3)`; and in general order-preserving key grouping emits its entries
in the order each key first appears in the table. -/
theorem groupby_sum_example_and_first_appearance_order {κ : Type}
    [DecidableEq κ] (keys : List κ) :
    aggregate (⟨["a", "a", "b"], [1, 2, 3]⟩ : TableSnapshot String) [AggOp.sum]
      = [("a", [3]), ("b", [3])] ∧
    (keyGroupIndex keys).map Prod.fst = firstAppearanceOrder keys :=
  ⟨by decide, keyGroupIndex_map_fst keys⟩

theorem GroupIter.next_some {κ ρ : Type} [Inhabited κ] [Inhabited ρ]
    {s s' : GroupIter κ ρ} {kv : κ × List ρ} (h : s.next = Option.some (kv, s')) :
    s.cursor < s.indices.length ∧
      kv = (s.names.getD s.cursor default,
        (s.indices.getD s.cursor []).map fun i => s.rows.getD i default) ∧
      s' = ⟨s.keys, s.rows, s.names, s.indices, s.cursor + 1⟩ := by
  unfold GroupIter.next at h
  by_cases hc : s.cursor < s.indices.length
  · rw [if_pos hc] at h
    cases h
    exact ⟨hc, rfl, rfl⟩
  · rw [if_neg hc] at h
    cases h

theorem advanceN_fields {κ ρ : Type} [Inhabited κ] [Inhabited ρ] (n : Nat) :
    ∀ s : GroupIter κ ρ,
      (advanceN n s).keys = s.keys ∧ (advanceN n s).rows = s.rows ∧
        (advanceN n s).names = s.names ∧ (advanceN n s).indices = s.indices := by
  induction n with
  | zero => intro s; exact ⟨rfl, rfl, rfl, rfl⟩
  | succ n ih =>
    intro s
    cases h : s.next with
    | none =>
      have hstep : advanceN (n + 1) s = s := by
        simp only [advanceN, h]
      rw [hstep]
      exact ⟨rfl, rfl, rfl, rfl⟩
    | some p =>
      obtain ⟨kv, s'⟩ := p
      obtain ⟨-, -, hs'⟩ := GroupIter.next_some h
      have hstep : advanceN (n + 1) s = advanceN n s' := by
        simp only [advanceN, h]
      rw [hstep, hs']
      obtain ⟨e1, e2, e3, e4⟩ :=
        ih ⟨s.keys, s.rows, s.names, s.indices, s.cursor + 1⟩
      exact ⟨e1, e2, e3, e4⟩

theorem advanceN_cursor {κ ρ : Type} [Inhabited κ] [Inhabited ρ] (n : Nat) :
    ∀ s : GroupIter κ ρ, s.cursor ≤ s.indices.length →
      (advanceN n s).cursor = Min.min (s.cursor + n) s.indices.length := by
  induction n with
  | zero => intro s hs; simp [advanceN]; omega
  | succ n ih =>
    intro s hs
    by_cases hc : s.cursor < s.indices.length
    · have hnext : s.next = Option.some
          ((s.names.getD s.cursor default,
            (s.indices.getD s.cursor []).map fun i => s.rows.getD i default),
            ⟨s.keys, s.rows, s.names, s.indices, s.cursor + 1⟩) := by
        unfold GroupIter.next
        rw [if_pos hc]
      have hstep : advanceN (n + 1) s
          = advanceN n ⟨s.keys, s.rows, s.names, s.indices, s.cursor + 1⟩ := by
        simp only [advanceN, hnext]
      rw [hstep,
        ih ⟨s.keys, s.rows, s.names, s.indices, s.cursor + 1⟩ (by simpa using hc)]
      show Min.min (s.cursor + 1 + n) s.indices.length
          = Min.min (s.cursor + (n + 1)) s.indices.length
      omega
    · have hnext : s.next = Option.none := by
        unfold GroupIter.next
        rw [if_neg hc]
      have hstep : advanceN (n + 1) s = s := by
        simp only [advanceN, hnext]
      rw [hstep]
      omega

theorem iterTraceAux_eq {κ ρ : Type} [Inhabited κ] [Inhabited ρ]
    (keys : List κ) (rows : List ρ) (names : List κ)
    (indices : List (List Nat)) (hlen : names.length = indices.length) :
    ∀ (fuel c : Nat), fuel = indices.length - c →
      iterTraceAux fuel (⟨keys, rows, names, indices, c⟩ : GroupIter κ ρ) =
        ((names.zip indices).drop c).map
          (fun p => (p.1, p.2.map fun i => rows.getD i default)) := by
  intro fuel
  induction fuel with
  | zero =>
    intro c hc
    have hcl : indices.length ≤ c := by omega
    rw [List.drop_eq_nil_of_le (by rw [List.length_zip]; omega)]
    rfl
  | succ n ih =>
    intro c hc
    have hc' : c < indices.length := by omega
    have hcz : c < (names.zip indices).length := by rw [List.length_zip]; omega
    have hnext : (⟨keys, rows, names, indices, c⟩ : GroupIter κ ρ).next
        = Option.some
          ((names.getD c default, (indices.getD c []).map fun i => rows.getD i default),
            ⟨keys, rows, names, indices, c + 1⟩) := by
      unfold GroupIter.next
      rw [if_pos hc']
    have hstep : iterTraceAux (n + 1)
          (⟨keys, rows, names, indices, c⟩ : GroupIter κ ρ)
        = (names.getD c default, (indices.getD c []).map fun i => rows.getD i default)
          :: iterTraceAux n (⟨keys, rows, names, indices, c + 1⟩ : GroupIter κ ρ) := by
      simp only [iterTraceAux, hnext]
    rw [hstep, ih (c + 1) (by omega), List.drop_eq_getElem_cons hcz,
      List.map_cons, List.getElem_zip,
      List.getD_eq_getElem names default (by omega),
      List.getD_eq_getElem indices [] (by omega)]

theorem iterTrace_start {κ ρ : Type} [DecidableEq κ] [Inhabited κ] [Inhabited ρ]
    (keys : List κ) (rows : List ρ) :
    iterTrace (iterStart keys rows) =
      (keyGroupIndex keys).map
        (fun e => (e.1, e.2.map fun i => rows.getD i default)) := by
  unfold iterTrace iterStart
  rw [iterTraceAux_eq keys rows _ _ (by simp) _ 0 rfl]
  rw [List.drop_zero, List.zip_map', List.map_map]
  rfl

/-- C7: restarting iteration on an unchanged table recomputes the group
index, resets the cursor, and replays the identical (key, sub-table)
sequence — after any number of advances, `reset` returns the iterator to
its freshly-started state; a full pass yields one pair per group-index
entry, the entry's key with the sub-table of exactly its row indices in
stored order; and once the entries are exhausted `next` signals the end
and keeps signalling it, however much further the iterator is advanced. -/
theorem grouped_iterator_reset_replay {κ ρ : Type} [DecidableEq κ]
    [Inhabited κ] [Inhabited ρ] (keys : List κ) (rows : List ρ) (n m : Nat) :
    (advanceN n (iterStart keys rows)).reset = iterStart keys rows ∧
    iterTrace ((advanceN n (iterStart keys rows)).reset)
      = iterTrace (iterStart keys rows) ∧
    iterTrace (iterStart keys rows) =
      (keyGroupIndex keys).map
        (fun e => (e.1, e.2.map fun i => rows.getD i default)) ∧
    (advanceN ((keyGroupIndex keys).length + m) (iterStart keys rows)).next
      = Option.none := by
  obtain ⟨h1, h2, -, -⟩ := advanceN_fields n (iterStart keys rows)
  have hreset : (advanceN n (iterStart keys rows)).reset = iterStart keys rows := by
    unfold GroupIter.reset
    rw [h1, h2]
    rfl
  refine ⟨hreset, by rw [hreset], iterTrace_start keys rows, ?_⟩
  obtain ⟨-, -, -, hidx⟩ :=
    advanceN_fields ((keyGroupIndex keys).length + m) (iterStart keys rows)
  have hc0 : (iterStart keys rows : GroupIter κ ρ).cursor = 0 := rfl
  have hilen : (iterStart keys rows : GroupIter κ ρ).indices.length
      = (keyGroupIndex keys).length := by
    simp [iterStart]
  have hcur := advanceN_cursor ((keyGroupIndex keys).length + m)
    (iterStart keys rows) (by rw [hc0]; exact Nat.zero_le _)
  have hcond : ¬ ((advanceN ((keyGroupIndex keys).length + m)
        (iterStart keys rows)).cursor
      < (advanceN ((keyGroupIndex keys).length + m)
        (iterStart keys rows)).indices.length) := by
    rw [hidx, hcur, hc0, hilen]
    omega
  unfold GroupIter.next
  rw [if_neg hcond]

/-- C8: every convenience aggregation of the key-grouping wrapper returns
exactly what the general `agg` returns on the corresponding pre-built
expression — they are sugar over `agg`, not separate algorithms. -/
theorem convenience_aggregations_are_agg_calls {D R : Type} (g : PyGroupBy D R)
    (q : Rat) (interp : String) :
    PyGroupBy.count g = g.agg PExpr.count ∧
    PyGroupBy.sum g = g.agg (PExpr.sum PExpr.all) ∧
    PyGroupBy.mean g = g.agg (PExpr.mean PExpr.all) ∧
    PyGroupBy.median g = g.agg (PExpr.median PExpr.all) ∧
    PyGroupBy.min g = g.agg (PExpr.min PExpr.all) ∧
    PyGroupBy.max g = g.agg (PExpr.max PExpr.all) ∧
    PyGroupBy.nUnique g = g.agg (PExpr.nUnique PExpr.all) ∧
    PyGroupBy.quantile g q interp = g.agg (PExpr.quantile PExpr.all q interp) ∧
    PyGroupBy.first g = g.agg (PExpr.first PExpr.all) ∧
    PyGroupBy.last g = g.agg (PExpr.last PExpr.all) ∧
    PyGroupBy.all g = g.agg PExpr.all :=
  ⟨rfl, rfl, rfl, rfl, rfl, rfl, rfl, rfl, rfl, rfl, rfl⟩

/-- C9: `GroupBy.apply` raises `TypeError` before invoking the user
function whenever any grouping key is an expression rather than a plain
string; when every key is a string it succeeds and the function is
applied per group. -/
theorem apply_requires_string_keys {κ ρ : Type} [DecidableEq κ] [Inhabited ρ]
    (rows : List ρ) (keyOf : ρ → κ) (b : ByArg) (more : List PyVal)
    (f : List ρ → List ρ) :
    (allByStrings b more = false →
      pyApply rows keyOf b more f = Except.error GbError.TypeError) ∧
    (allByStrings b more = true →
      pyApply rows keyOf b more f
        = Except.ok (groupbyApplyEngine rows keyOf f)) := by
  constructor <;> intro h
  · cases b with
    | one v =>
      cases v with
      | str s =>
        have hm : more.all PyVal.isStr = false := by
          simpa [allByStrings, PyVal.isStr] using h
        simp [pyApply, applyByNames, hm]
      | expr => simp [pyApply, applyByNames]
    | seq vs =>
      cases hv : vs.all PyVal.isStr with
      | false => simp [pyApply, applyByNames, hv]
      | true =>
        have hm : more.all PyVal.isStr = false := by
          simpa [allByStrings, hv] using h
        simp [pyApply, applyByNames, hv, hm]
  · cases b with
    | one v =>
      cases v with
      | str s =>
        have hm : more.all PyVal.isStr = true := by
          simpa [allByStrings, PyVal.isStr] using h
        simp [pyApply, applyByNames, hm]
      | expr =>
        exfalso
        simp [allByStrings, PyVal.isStr] at h
    | seq vs =>
      have hvm : vs.all PyVal.isStr = true ∧ more.all PyVal.isStr = true := by
        simpa [allByStrings, Bool.and_eq_true] using h
      simp [pyApply, applyByNames, hvm.1, hvm.2]

theorem apply_requires_string_keys_witness :
    allByStrings (ByArg.one PyVal.expr) [] = false ∧
    pyApply ([] : List Nat) (fun r => r) (ByArg.one PyVal.expr) [] (fun l => l)
      = Except.error GbError.TypeError :=
  ⟨rfl, (apply_requires_string_keys ([] : List Nat) (fun r => r)
    (ByArg.one PyVal.expr) [] (fun l => l)).1 rfl⟩

/-- C10: the shape of the yielded group key is decided by the call-site
shape of the grouping keys — key grouping yields a bare scalar exactly
when `by` is a single string/expression with no extra positional keys;
rolling and dynamic grouping yield a bare scalar exactly when no
secondary partition columns are given. -/
theorem group_key_shape_by_callsite {γ δ : Type} (b : ByArg)
    (more : List PyVal) (rby : Option γ) (dby : Option δ) :
    (keyGroupNameShape b more = KeyShape.scalar ↔
      (∃ v, b = ByArg.one v) ∧ more = []) ∧
    (rollingNameShape rby = KeyShape.scalar ↔ rby = Option.none) ∧
    (dynamicNameShape dby = KeyShape.scalar ↔ dby = Option.none) := by
  refine ⟨?_, ?_, ?_⟩
  · cases b with
    | one v => cases more <;> simp [keyGroupNameShape]
    | seq vs => cases more <;> simp [keyGroupNameShape]
  · cases rby <;> simp [rollingNameShape]
  · cases dby <;> simp [dynamicNameShape]

end PolarsGroupBy
